import Mathlib

/-!
Verification development for the JavaScript table-writer backend of the
pytablewriter repository (`pytablewriter/writer/text/sourcecode/_javascript.py`).

Python strings are embedded as `List Char`.  The writer's per-cell formatting
pipeline, the two-phase render (buffer, textual post-pass, flush) and the
configuration surface are translated below; parts of the repository that are
imported by `_javascript.py` but whose files are not part of the shown source
(`strip_quote`, `bool_to_str`, `quote_datetime_formatter`, the base
`SourceCodeTableWriter` control flow, `sanitize_js_var_name`) are modelled from
the specification, each marked `Modelled from the spec:` in its doc comment.
-/

/-- Python strings are modelled as lists of characters. -/
abbrev Chars := List Char

namespace PyTableWriter

/-! ### The quote-stripping post-pass (`strip_quote`) -/

/-- Does the character list start with a double quote? -/
def startsQuote : Chars → Bool
  | [] => false
  | c :: _ => c == '"'

/-- Does `cs` start with `tok` immediately followed by a closing double quote?
Together with a leading quote this is one match of the pattern that
`strip_quote` replaces. -/
def tokQP (tok cs : Chars) : Bool :=
  (cs.take tok.length == tok) && startsQuote (cs.drop tok.length)

/-- Fuel-indexed scanner for `strip_quote`: replaces every (left-to-right,
non-overlapping) occurrence of `"tok"` by the bare `tok`.  With fuel at least
the length of the input the fuel never runs out. -/
def sqGo (tok : Chars) : Nat → Chars → Chars
  | 0, cs => cs
  | _ + 1, [] => []
  | f + 1, c :: cs =>
    if (c == '"') && tokQP tok cs then
      tok ++ sqGo tok f (cs.drop (tok.length + 1))
    else
      c :: sqGo tok f cs

/-- Modelled from the spec: `strip_quote` from `pytablewriter._converter`
(imported at src line 9, file not in src/).  The spec describes "an explicit
post-pass that strips quotes specifically around the literal tokens `true` and
`false` anywhere they appear verbatim in the rendered text", a "blind text
search in the full buffer".  Each occurrence of the token surrounded by quotes
is replaced by the bare token, scanning left to right. -/
def strip_quote (text tok : Chars) : Chars :=
  sqGo tok text.length text

theorem sqGo_fuel (tok : Chars) :
    ∀ f g cs, cs.length ≤ f → cs.length ≤ g → sqGo tok f cs = sqGo tok g cs := by
  intro f
  induction f with
  | zero =>
    intro g cs hf _
    have : cs = [] := List.eq_nil_of_length_eq_zero (Nat.le_zero.mp hf)
    subst this
    cases g <;> rfl
  | succ f ih =>
    intro g cs hf hg
    cases cs with
    | nil => cases g <;> rfl
    | cons c cs' =>
      cases g with
      | zero => exact absurd hg (by simp)
      | succ g' =>
        simp only [sqGo]
        by_cases h : ((c == '"') && tokQP tok cs') = true
        · rw [if_pos h, if_pos h]
          have h1 : (cs'.drop (tok.length + 1)).length ≤ f := by
            have := List.length_drop (tok.length + 1) cs'
            have hcs : cs'.length ≤ f := Nat.le_of_succ_le_succ (by simpa using hf)
            omega
          have h2 : (cs'.drop (tok.length + 1)).length ≤ g' := by
            have := List.length_drop (tok.length + 1) cs'
            have hcs : cs'.length ≤ g' := Nat.le_of_succ_le_succ (by simpa using hg)
            omega
          rw [ih _ _ h1 h2]
        · rw [if_neg h, if_neg h]
          have h1 : cs'.length ≤ f := Nat.le_of_succ_le_succ (by simpa using hf)
          have h2 : cs'.length ≤ g' := Nat.le_of_succ_le_succ (by simpa using hg)
          rw [ih _ _ h1 h2]

@[simp]
theorem strip_quote_nil (tok : Chars) : strip_quote [] tok = [] := rfl

/-- One-step unfolding of `strip_quote`. -/
theorem strip_quote_cons (tok : Chars) (c : Char) (cs : Chars) :
    strip_quote (c :: cs) tok =
      if (c == '"') && tokQP tok cs then
        tok ++ strip_quote (cs.drop (tok.length + 1)) tok
      else
        c :: strip_quote cs tok := by
  show sqGo tok (cs.length + 1) (c :: cs) = _
  simp only [sqGo]
  by_cases h : ((c == '"') && tokQP tok cs) = true
  · rw [if_pos h, if_pos h]
    have : (cs.drop (tok.length + 1)).length ≤ cs.length := by
      have := List.length_drop (tok.length + 1) cs
      omega
    rw [sqGo_fuel tok cs.length (cs.drop (tok.length + 1)).length _ this (Nat.le_refl _)]
    rfl
  · rw [if_neg h, if_neg h]
    rfl

/-- A cons whose head is not a double quote passes through the scanner. -/
theorem strip_quote_cons_safe (tok : Chars) (c : Char) (cs : Chars) (hc : c ≠ '"') :
    strip_quote (c :: cs) tok = c :: strip_quote cs tok := by
  rw [strip_quote_cons]
  have : (c == '"') = false := by simpa using hc
  rw [this]
  simp

/-- `strip_quote` is the identity on text containing no double quote. -/
theorem strip_quote_no_quote (tok : Chars) :
    ∀ cs : Chars, '"' ∉ cs → strip_quote cs tok = cs := by
  intro cs
  induction cs with
  | nil => intro _; rfl
  | cons c cs ih =>
    intro h
    have hc : c ≠ '"' := by
      intro hc
      exact h (hc ▸ List.mem_cons_self c cs)
    rw [strip_quote_cons_safe tok c cs hc, ih (fun hm => h (List.mem_cons_of_mem c hm))]

/-- A pattern match inside `xs` is preserved when more text is appended. -/
theorem tokQP_append (tok xs ys : Chars) (h : tokQP tok xs = true) :
    tokQP tok (xs ++ ys) = true := by
  unfold tokQP at h ⊢
  rw [Bool.and_eq_true] at h
  obtain ⟨h1, h2⟩ := h
  rw [beq_iff_eq] at h1
  cases hds : xs.drop tok.length with
  | nil =>
    rw [hds] at h2
    exact absurd h2 (by simp [startsQuote])
  | cons d ds =>
    rw [hds] at h2
    have hlen : tok.length ≤ xs.length := by
      by_contra hlt
      push_neg at hlt
      rw [List.drop_eq_nil_of_le (Nat.le_of_lt hlt)] at hds
      exact List.noConfusion hds
    rw [List.take_append_of_le_length hlen, List.drop_append_of_le_length hlen, h1, hds]
    simpa [startsQuote] using h2

/-- If the first character after the boundary is neither a quote nor a
character of the token, a pattern match in `xs ++ c :: ys` that starts inside
`xs` lies entirely inside `xs`. -/
theorem tokQP_of_append (tok xs ys : Chars) (c : Char) (hq : c ≠ '"') (ht : c ∉ tok)
    (h : tokQP tok (xs ++ c :: ys) = true) : tokQP tok xs = true := by
  unfold tokQP at h ⊢
  rw [Bool.and_eq_true] at h
  obtain ⟨h1, h2⟩ := h
  rw [beq_iff_eq] at h1
  rcases le_or_lt tok.length xs.length with hle | hgt
  · rw [List.take_append_of_le_length hle] at h1
    rw [List.drop_append_of_le_length hle] at h2
    cases hds : xs.drop tok.length with
    | nil =>
      rw [hds, List.nil_append] at h2
      have hc : c = '"' := by simpa [startsQuote] using h2
      exact absurd hc hq
    | cons d ds =>
      rw [hds, List.cons_append] at h2
      have hd : d = '"' := by simpa [startsQuote] using h2
      rw [h1, hd]
      simp [startsQuote]
  · exfalso
    have hxs : xs.take tok.length = xs := List.take_of_length_le (Nat.le_of_lt hgt)
    rw [List.take_append_eq_append_take, hxs] at h1
    have hpos : 1 ≤ tok.length - xs.length := by omega
    have hstep : (c :: ys).take (tok.length - xs.length)
        = c :: ys.take (tok.length - xs.length - 1) := by
      cases htk : tok.length - xs.length with
      | zero => omega
      | succ k => simp [List.take]
    rw [hstep] at h1
    apply ht
    rw [← h1]
    exact List.mem_append_right _ (List.mem_cons_self _ _)

/-- A pattern match needs the token plus a closing quote after the opening
quote, so the text from the opening quote on is longer than the token. -/
theorem tokQP_length (tok cs : Chars) (h : tokQP tok cs = true) :
    tok.length + 1 ≤ cs.length := by
  unfold tokQP at h
  rw [Bool.and_eq_true] at h
  obtain ⟨_, h2⟩ := h
  cases hds : cs.drop tok.length with
  | nil =>
    rw [hds] at h2
    exact absurd h2 (by simp [startsQuote])
  | cons d ds =>
    have := congrArg List.length hds
    simp only [List.length_drop, List.length_cons] at this
    omega

/-- Key distribution property of the post-pass: the scan of `xs ++ c :: ys`
splits at the boundary whenever the first character after it is neither a
quote nor a character of the token (then no match can span the boundary). -/
theorem strip_quote_append_safe (tok : Chars) (c : Char) (hq : c ≠ '"') (ht : c ∉ tok) :
    ∀ xs ys, strip_quote (xs ++ c :: ys) tok = strip_quote xs tok ++ strip_quote (c :: ys) tok := by
  suffices h : ∀ n xs ys, List.length xs ≤ n →
      strip_quote (xs ++ c :: ys) tok = strip_quote xs tok ++ strip_quote (c :: ys) tok by
    intro xs ys
    exact h xs.length xs ys (Nat.le_refl _)
  intro n
  induction n with
  | zero =>
    intro xs ys hlen
    have : xs = [] := List.eq_nil_of_length_eq_zero (Nat.le_zero.mp hlen)
    subst this
    simp
  | succ n ih =>
    intro xs ys hlen
    cases xs with
    | nil => simp
    | cons a xs' =>
      rw [List.cons_append, strip_quote_cons, strip_quote_cons tok a xs']
      by_cases hcond : ((a == '"') && tokQP tok xs') = true
      · have hcond2 : ((a == '"') && tokQP tok (xs' ++ c :: ys)) = true := by
          rw [Bool.and_eq_true] at hcond ⊢
          exact ⟨hcond.1, tokQP_append tok xs' (c :: ys) hcond.2⟩
        rw [if_pos hcond2, if_pos hcond]
        have hlen' : tok.length + 1 ≤ xs'.length :=
          tokQP_length tok xs' (Bool.and_eq_true .. |>.mp hcond).2
        rw [List.drop_append_of_le_length hlen']
        have hrec : (xs'.drop (tok.length + 1)).length ≤ n := by
          have h1 : xs'.length ≤ n := Nat.le_of_succ_le_succ (by simpa using hlen)
          have := List.length_drop (tok.length + 1) xs'
          omega
        rw [ih (xs'.drop (tok.length + 1)) ys hrec, List.append_assoc]
      · have hcond2 : ¬(((a == '"') && tokQP tok (xs' ++ c :: ys)) = true) := by
          intro hcon
          rw [Bool.and_eq_true] at hcon
          exact hcond (Bool.and_eq_true .. |>.mpr
            ⟨hcon.1, tokQP_of_append tok xs' ys c hq ht hcon.2⟩)
        rw [if_neg hcond2, if_neg hcond]
        have h1 : xs'.length ≤ n := Nat.le_of_succ_le_succ (by simpa using hlen)
        rw [ih xs' ys h1, List.cons_append]

/-! ### Line toolkit: Python `"\n".join`, `splitlines`, `rstrip` analogues -/

/-- `"\n".join` of a list of lines. -/
def joinNl : List Chars → Chars
  | [] => []
  | [l] => l
  | l :: ls => l ++ '\n' :: joinNl ls

@[simp]
theorem joinNl_nil : joinNl [] = [] := rfl

@[simp]
theorem joinNl_singleton (l : Chars) : joinNl [l] = l := rfl

theorem joinNl_cons_cons (l l' : Chars) (ls : List Chars) :
    joinNl (l :: l' :: ls) = l ++ '\n' :: joinNl (l' :: ls) := rfl

/-- Split on `'\n'` (the separator view: `"a\nb"` gives `["a", "b"]`,
`"a\n"` gives `["a", ""]`). -/
def splitNl : Chars → List Chars
  | [] => [[]]
  | c :: cs =>
    if c = '\n' then [] :: splitNl cs
    else
      match splitNl cs with
      | [] => [[c]]
      | l :: ls => (c :: l) :: ls

theorem splitNl_ne_nil : ∀ cs : Chars, splitNl cs ≠ [] := by
  intro cs
  cases cs with
  | nil => simp [splitNl]
  | cons c cs' =>
    simp only [splitNl]
    split
    · simp
    · split <;> simp

theorem mem_splitNl_no_nl : ∀ (cs : Chars) (l : Chars), l ∈ splitNl cs → '\n' ∉ l := by
  intro cs
  induction cs with
  | nil =>
    intro l hl
    simp [splitNl] at hl
    simp [hl]
  | cons c cs' ih =>
    intro l hl
    simp only [splitNl] at hl
    by_cases hc : c = '\n'
    · rw [if_pos hc] at hl
      rcases List.mem_cons.mp hl with h | h
      · simp [h]
      · exact ih l h
    · rw [if_neg hc] at hl
      cases hsp : splitNl cs' with
      | nil => exact absurd hsp (splitNl_ne_nil cs')
      | cons l0 ls0 =>
        rw [hsp] at hl
        rcases List.mem_cons.mp hl with h | h
        · subst h
          intro hmem
          rcases List.mem_cons.mp hmem with h' | h'
          · exact hc h'.symm
          · exact ih l0 (hsp ▸ List.mem_cons_self l0 ls0) h'
        · exact ih l (hsp ▸ List.mem_cons_of_mem l0 h)

theorem splitNl_no_nl (l : Chars) (h : '\n' ∉ l) : splitNl l = [l] := by
  induction l with
  | nil => rfl
  | cons c cs ih =>
    have hc : c ≠ '\n' := fun hc => h (hc ▸ List.mem_cons_self c cs)
    have hcs : '\n' ∉ cs := fun hm => h (List.mem_cons_of_mem c hm)
    simp only [splitNl, if_neg hc, ih hcs]

theorem splitNl_append_nl (l rest : Chars) (hl : '\n' ∉ l) :
    splitNl (l ++ '\n' :: rest) = l :: splitNl rest := by
  induction l with
  | nil =>
    simp [splitNl]
  | cons c cs ih =>
    have hc : c ≠ '\n' := fun hc => hl (hc ▸ List.mem_cons_self c cs)
    have hcs : '\n' ∉ cs := fun hm => hl (List.mem_cons_of_mem c hm)
    rw [List.cons_append]
    simp only [splitNl, if_neg hc, ih hcs]

/-- `splitNl` undoes `joinNl` on nonempty lists of newline-free lines. -/
theorem splitNl_joinNl : ∀ ls : List Chars, ls ≠ [] → (∀ l ∈ ls, '\n' ∉ l) →
    splitNl (joinNl ls) = ls := by
  intro ls
  induction ls with
  | nil => intro h; exact absurd rfl h
  | cons l ls' ih =>
    intro _ hfree
    cases ls' with
    | nil => exact splitNl_no_nl l (hfree l (List.mem_cons_self l []))
    | cons l' ls'' =>
      rw [joinNl_cons_cons,
        splitNl_append_nl l (joinNl (l' :: ls'')) (hfree l (List.mem_cons_self _ _)),
        ih (by simp) (fun x hx => hfree x (List.mem_cons_of_mem l hx))]

theorem nl_mem_joinNl (a b : Chars) (ls : List Chars) : '\n' ∈ joinNl (a :: b :: ls) := by
  rw [joinNl_cons_cons]
  exact List.mem_append_right a (List.mem_cons_self _ _)

theorem splitNl_length_two : ∀ cs : Chars, '\n' ∈ cs → 2 ≤ (splitNl cs).length := by
  intro cs
  induction cs with
  | nil => intro h; simp at h
  | cons c cs' ih =>
    intro h
    simp only [splitNl]
    by_cases hc : c = '\n'
    · rw [if_pos hc]
      have := splitNl_ne_nil cs'
      have : 1 ≤ (splitNl cs').length := by
        cases hsp : splitNl cs' with
        | nil => exact absurd hsp this
        | cons _ _ => simp
      simp only [List.length_cons]
      omega
    · rw [if_neg hc]
      have hmem : '\n' ∈ cs' := by
        rcases List.mem_cons.mp h with h' | h'
        · exact absurd h'.symm hc
        · exact h'
      have h2 := ih hmem
      cases hsp : splitNl cs' with
      | nil => exact absurd hsp (splitNl_ne_nil cs')
      | cons l0 ls0 =>
        rw [hsp] at h2
        simpa using h2

theorem joinNl_getLast? : ∀ (ls : List Chars) (l : Chars), ls.getLast? = some l → l ≠ [] →
    (joinNl ls).getLast? = l.getLast? := by
  intro ls
  induction ls with
  | nil => intro l h _; simp at h
  | cons x ls' ih =>
    intro l h hne
    cases ls' with
    | nil =>
      simp only [List.getLast?_singleton] at h
      injection h with h
      rw [joinNl_singleton, h]
    | cons y ls'' =>
      have hlast : (y :: ls'').getLast? = some l := by
        rw [List.getLast?_cons_cons] at h
        exact h
      rw [joinNl_cons_cons, List.getLast?_append]
      have hjoin := ih l hlast hne
      have hne2 : joinNl (y :: ls'') ≠ [] := by
        intro hnil
        rw [hnil] at hjoin
        have : l.getLast? = none := hjoin.symm
        cases l with
        | nil => exact hne rfl
        | cons a as => rw [List.getLast?_eq_getLast _ (by simp)] at this; exact Option.noConfusion this
      have : ('\n' :: joinNl (y :: ls'')).getLast? = (joinNl (y :: ls'')).getLast? := by
        cases hj : joinNl (y :: ls'') with
        | nil => exact absurd hj hne2
        | cons a as => rw [List.getLast?_cons_cons]
      rw [this, hjoin]
      cases hl : l.getLast? with
      | none =>
        rw [hl] at hjoin
        cases l with
        | nil => exact absurd rfl hne
        | cons a as => rw [List.getLast?_eq_getLast _ (by simp)] at hl; exact Option.noConfusion hl
      | some a => rfl

/-- Python `s.rstrip(c)` for a single-character strip set. -/
def rstripChar (p : Char) (s : Chars) : Chars :=
  (s.reverse.dropWhile (· == p)).reverse

theorem head?_dropWhile_not {α : Type} (q : α → Bool) :
    ∀ (l : List α) (a : α), (l.dropWhile q).head? = some a → q a = false := by
  intro l
  induction l with
  | nil => intro a h; simp [List.dropWhile] at h
  | cons x xs ih =>
    intro a h
    rw [List.dropWhile_cons] at h
    by_cases hq : q x = true
    · rw [if_pos hq] at h
      exact ih a h
    · rw [if_neg hq] at h
      injection h with h
      subst h
      exact Bool.not_eq_true _ |>.mp hq

theorem rstripChar_getLast?_ne (p : Char) (s : Chars) :
    (rstripChar p s).getLast? ≠ some p := by
  intro h
  unfold rstripChar at h
  rw [List.getLast?_reverse] at h
  have := head?_dropWhile_not (· == p) s.reverse p h
  simp at this

theorem rstripChar_append_same (p : Char) (s : Chars) :
    rstripChar p (s ++ [p]) = rstripChar p s := by
  unfold rstripChar
  rw [List.reverse_append]
  simp [List.dropWhile_cons]

theorem rstripChar_of_getLast?_ne (p : Char) (s : Chars) (c : Char)
    (h : s.getLast? = some c) (hc : c ≠ p) : rstripChar p s = s := by
  unfold rstripChar
  have hhead : s.reverse.head? = some c := by rw [List.head?_reverse]; exact h
  cases hrev : s.reverse with
  | nil => rw [hrev] at hhead; exact Option.noConfusion hhead
  | cons a as =>
    rw [hrev] at hhead
    injection hhead with ha
    subst ha
    rw [List.dropWhile_cons, if_neg (by simp [hc])]
    rw [← hrev, List.reverse_reverse]

theorem mem_rstripChar (p : Char) (s : Chars) (x : Char) (h : x ∈ rstripChar p s) : x ∈ s := by
  unfold rstripChar at h
  rw [List.mem_reverse] at h
  have := (List.dropWhile_sublist (l := s.reverse) (p := (· == p))).mem h
  rwa [List.mem_reverse] at this

/-! ### Indexed list update helpers (Python `line_list[-2] = ...`) -/

theorem getD_set_self {α : Type} :
    ∀ (ls : List α) (i : Nat) (x d : α), i < ls.length → (ls.set i x).getD i d = x := by
  intro ls
  induction ls with
  | nil => intro i x d h; simp at h
  | cons a as ih =>
    intro i x d h
    cases i with
    | zero => rfl
    | succ i' =>
      simp only [List.set_cons_succ, List.getD_cons_succ]
      exact ih i' x d (by simpa using h)

theorem mem_set_or {α : Type} :
    ∀ (ls : List α) (i : Nat) (x l : α), l ∈ ls.set i x → l = x ∨ l ∈ ls := by
  intro ls
  induction ls with
  | nil => intro i x l h; simp at h
  | cons a as ih =>
    intro i x l h
    cases i with
    | zero =>
      rcases List.mem_cons.mp h with h' | h'
      · exact Or.inl h'
      · exact Or.inr (List.mem_cons_of_mem a h')
    | succ i' =>
      rcases List.mem_cons.mp h with h' | h'
      · exact Or.inr (h' ▸ List.mem_cons_self a as)
      · rcases ih i' x l h' with h'' | h''
        · exact Or.inl h''
        · exact Or.inr (List.mem_cons_of_mem a h'')

theorem getD_mem {α : Type} :
    ∀ (ls : List α) (i : Nat) (d : α), i < ls.length → ls.getD i d ∈ ls := by
  intro ls
  induction ls with
  | nil => intro i d h; simp at h
  | cons a as ih =>
    intro i d h
    cases i with
    | zero => exact List.mem_cons_self a as
    | succ i' =>
      simp only [List.getD_cons_succ]
      exact List.mem_cons_of_mem a (ih i' d (by simpa using h))

/-! ### Data model: raw cell values -/

/-- A datetime instance: its calendar year, the text produced by
`strftime(DefaultValue.DATETIME_FORMAT)` (defined for years the formatter can
represent), and the text of Python `str(value)`. -/
structure DateTimeVal where
  year : Nat
  formatted : Chars
  rawStr : Chars
deriving DecidableEq

/-- A raw input cell of the table: the external type system of the spec
(native null, bool, int, float with its two special values, string,
datetime).  Finite floats carry their decimal text representation. -/
inductive RawValue where
  | vNull
  | vBool (b : Bool)
  | vInt (i : Int)
  | vFloat (s : Chars)
  | vInf
  | vNegInf
  | vNaN
  | vDateTime (d : DateTimeVal)
  | vStr (s : Chars)
deriving DecidableEq

/-- The token `true` as characters. -/
def trueTok : Chars := "true".data

/-- The token `false` as characters. -/
def falseTok : Chars := "false".data

/-- Modelled from the spec: `bool_to_str` from
`pytablewriter.writer.text._common` (imported at src line 12, file not in
src/), the transformation function registered at src line 97: boolean `True` /
`False` become the strings `"true"` / `"false"`. -/
def bool_to_str (b : Bool) : Chars :=
  if b then trueTok else falseTok

/-- Modelled from the spec: the generic String formatter produces a "quoted
string literal with internal quotes escaped". -/
def escape_quotes : Chars → Chars
  | [] => []
  | c :: cs => if c = '"' then '\\' :: '"' :: escape_quotes cs else c :: escape_quotes cs

/-- Modelled from the spec: the default quoting pass "wraps all non-numeric
scalars in quotes". -/
def quoteStr (s : Chars) : Chars :=
  '"' :: (escape_quotes s ++ ['"'])

/-- The minimum year `datetime.strftime` can format; src lines 19-20 document
that `strftime` raises `ValueError` below it. -/
def DATETIME_MIN_YEAR : Nat := 1900

/-- `js_datetime_formatter` (src lines 16-21): formats a datetime cell as
`new Date("<formatted>")`; when `strftime` fails because the year predates
`DATETIME_MIN_YEAR` it falls back to `new Date("<str(value)>")`. -/
def js_datetime_formatter (v : DateTimeVal) : Chars :=
  if DATETIME_MIN_YEAR ≤ v.year then
    "new Date(\"".data ++ (v.formatted ++ "\")".data)
  else
    "new Date(\"".data ++ (v.rawStr ++ "\")".data)

/-- Modelled from the spec: `quote_datetime_formatter` from
`pytablewriter._function` (imported at src line 10, file not in src/); when
native datetime formatting is off, a datetime cell becomes "a quoted string
literal of the formatted date". -/
def quote_datetime_formatter (v : DateTimeVal) : Chars :=
  '"' :: (v.formatted ++ ['"'])

/-! ### Configuration and the `variable_declaration` setter -/

/-- The validated declaration keyword: `__VALID_VAR_DECLARATION`
(src line 64) is the closed set `("var", "let", "const")`. -/
inductive VarDecl where
  | var
  | letDecl
  | constDecl
deriving DecidableEq

/-- The characters of a validated declaration keyword. -/
def VarDecl.chars : VarDecl → Chars
  | .var => "var".data
  | .letDecl => "let".data
  | .constDecl => "const".data

/-- Python `value.strip()`: surrounding whitespace removed. -/
def pyStrip (s : Chars) : Chars :=
  ((s.dropWhile Char.isWhitespace).reverse.dropWhile Char.isWhitespace).reverse

/-- Python `value.strip().lower()` as performed by the setter (src line 81). -/
def normalize_decl (s : Chars) : Chars :=
  (pyStrip s).map Char.toLower

/-- Membership of the normalized keyword in `__VALID_VAR_DECLARATION`
(src line 82), returning the matching validated keyword. -/
def parse_var_decl (v : Chars) : Option VarDecl :=
  if v = "var".data then some VarDecl.var
  else if v = "let".data then some VarDecl.letDecl
  else if v = "const".data then some VarDecl.constDecl
  else none

/-- Writer configuration surface (spec section 6): declaration keyword,
datetime mode, header / closing-row toggles and the indentation width.
The declaration keyword is stored only through its validating setter, so it
is carried as a `VarDecl`; `__init__` (src line 90) sets `"const"`. -/
structure Config where
  variable_declaration : VarDecl := VarDecl.constDecl
  is_datetime_instance_formatting : Bool := false
  is_write_header : Bool := true
  is_write_closing_row : Bool := true
  indent_width : Nat := 4
deriving DecidableEq

/-- The error text of src line 83. -/
def DECL_ERROR : Chars := "declaration must be either var, let or const".data

/-- The `variable_declaration` setter (src lines 79-85): strip and lowercase
the value, reject it with `ValueError` unless it is in the closed set, and
only then store it.  A raised error is an `Except.error` result carrying no
new configuration, so the stored keyword is untouched. -/
def set_variable_declaration (cfg : Config) (value : Chars) : Except Chars Config :=
  match parse_var_decl (normalize_decl value) with
  | some d => Except.ok { cfg with variable_declaration := d }
  | none => Except.error DECL_ERROR

/-! ### Per-cell formatting -/

/-- `__NONE_VALUE_DP` (src line 65): the sentinel substituted for null cells,
rendered as the bare token `null` with no quoting applied. -/
def NONE_VALUE_DP : Chars := "null".data

/-- `_to_row_item` (src lines 135-138) composed with the per-type formatting
pipeline: a null cell is substituted with `__NONE_VALUE_DP` before
formatting; otherwise the generic path applies, with the writer's
`type_value_map` overrides `INFINITY -> Infinity`, `NAN -> NaN`
(src lines 91-95), booleans sent through `bool_to_str` (src line 97) and then
the generic quoting pass, the datetime formatter selected by
`is_datetime_instance_formatting` (src lines 102-106), numbers bare, and
strings through the quoting pass.  The non-source parts of this pipeline
(quoting of non-numeric scalars, bare numbers, `-Infinity` for negative
infinity) are modelled from the spec's formatter table. -/
def to_row_item (cfg : Config) : RawValue → Chars
  | .vNull => NONE_VALUE_DP
  | .vBool b => quoteStr (bool_to_str b)
  | .vInt i => (toString i).data
  | .vFloat s => s
  | .vInf => "Infinity".data
  | .vNegInf => "-Infinity".data
  | .vNaN => "NaN".data
  | .vDateTime d =>
    if cfg.is_datetime_instance_formatting then js_datetime_formatter d
    else quote_datetime_formatter d
  | .vStr s => quoteStr s

/-! ### Table assembly -/

/-- A table as handed to `write_table`: raw name, headers, value matrix. -/
structure Table where
  name : Chars
  headers : List Chars
  rows : List (List RawValue)
deriving DecidableEq

/-- Modelled from the spec: `sanitize_js_var_name` from
`pytablewriter.sanitizer` (imported at src line 11, file not in src/): "every
character invalid in the target identifier grammar is replaced with `_`". -/
def sanitize_js_var_name (s : Chars) : Chars :=
  s.map (fun c => if c.isAlphanum ∨ c = '_' then c else '_')

/-- `get_variable_name` (src lines 99-100): sanitize, then lowercase. -/
def get_variable_name (s : Chars) : Chars :=
  (sanitize_js_var_name s).map Char.toLower

/-- Join cell texts with the `", "` field separator of the row fragments. -/
def joinCells : List Chars → Chars
  | [] => []
  | [c] => c
  | c :: cs => c ++ ',' :: ' ' :: joinCells cs

/-- One body line of the buffer: indentation, `[`, the joined cells, `],`.
Modelled from the spec's output grammar; every row fragment carries its
trailing comma, which the post-pass removes from the last one. -/
def line_of (w : Nat) (cells : List Chars) : Chars :=
  List.replicate w ' ' ++ ('[' :: (joinCells cells ++ [']', ',']))

/-- `_get_opening_row_items` (src lines 129-130):
`"<declKeyword> <sanitizedVarName> = ["`. -/
def opening_line (cfg : Config) (t : Table) : Chars :=
  cfg.variable_declaration.chars ++ (' ' :: (get_variable_name t.name ++ " = [".data))

/-- `_get_closing_row_items` (src lines 132-133): `"];"`. -/
def closing_line : Chars := "];".data

/-- The cell texts of the body lines: the quoted header row when
`is_write_header` is on, then one list of formatted cells per value row. -/
def body_cell_texts (cfg : Config) (t : Table) : List (List Chars) :=
  (if cfg.is_write_header then [t.headers.map quoteStr] else [])
    ++ t.rows.map (fun r => r.map (to_row_item cfg))

/-- The buffer's line list with a transformation `f` applied to every
independently scanned piece (the opening line, each cell text, the closing
line).  With `f = id` this is the buffer the base writer emits; the
quote-stripping post-pass acts on the same shape with the pieces
individually stripped. -/
def assemble_lines (cfg : Config) (t : Table) (f : Chars → Chars) : List Chars :=
  f (opening_line cfg t)
    :: ((body_cell_texts cfg t).map (fun cells => line_of cfg.indent_width (cells.map f))
      ++ (if cfg.is_write_closing_row then [f closing_line] else []))

/-- Modelled from the spec: the base `_write_table` control flow (spec
section 4.3 steps 2-5, base class not in src/) writes the opening fragment,
the header and value rows and the closing fragment, each line terminated by a
newline, into the redirected stream. -/
def raw_buffer (cfg : Config) (t : Table) : Chars :=
  ((assemble_lines cfg t id).map (fun l => l ++ ['\n'])).flatten

/-! ### The textual post-pass of `_write_table` (src lines 114-120) -/

/-- Python `text.splitlines()` restricted to `'\n'` boundaries: a trailing
newline does not produce a final empty line. -/
def pyLines (cs : Chars) : List Chars :=
  if cs = [] then []
  else if cs.getLast? = some '\n' then splitNl cs.dropLast
  else splitNl cs

/-- `line_list[-2] = line_list[-2].rstrip(",")` (src line 119): strip the
trailing comma of the next-to-last line.  (With fewer than two lines Python
would raise `IndexError`; that state is unreachable because the opening row
and the closing row are both present whenever this branch runs.) -/
def fix_last_comma (lines : List Chars) : List Chars :=
  if 2 ≤ lines.length then
    lines.set (lines.length - 2) (rstripChar ',' (lines.getD (lines.length - 2) []))
  else lines

/-- The two `strip_quote` passes of src lines 115-116, in source order:
first `"true"`, then `"false"`. -/
def stripBoth (s : Chars) : Chars :=
  strip_quote (strip_quote s trueTok) falseTok

/-- The trailing-comma removal applied when `is_write_closing_row` is set
(src lines 117-120). -/
def apply_closing_fix (cfg : Config) (s : Chars) : Chars :=
  if cfg.is_write_closing_row then joinNl (fix_last_comma (pyLines s)) else s

/-- The whole textual post-pass of `_write_table` (src lines 114-120):
`rstrip("\n")`, strip quotes around `true` and `false`, then the
trailing-comma fix. -/
def post_process (cfg : Config) (buf : Chars) : Chars :=
  apply_closing_fix cfg (stripBoth (rstripChar '\n' buf))

/-! ### Stream redirection and the public `write_table` -/

/-- Which stream object `self.stream` currently names. -/
inductive StreamTarget where
  | original
  | buffer
deriving DecidableEq

/-- The writer's stream state: the attached stream, whether the intermediate
`StringIO` buffer is still open, and the text so far written to the original
output stream. -/
structure StreamSt where
  target : StreamTarget
  bufferOpen : Bool
  sink : Chars
deriving DecidableEq

/-- The resource flow of `_write_table` (src lines 102-127): save the original
stream, attach a fresh `StringIO` (lines 108-109), run the base class's row
emission (line 112, abstracted as `body`, which either produces the buffer
text or raises), post-process the buffer (lines 114-120), close the buffer and
restore the stream (lines 122-123), and write the final text plus a newline to
the restored stream (line 126).  There is no `try`/`finally`: an exception
from the body propagates with the buffer still open and attached. -/
def js_write_table_frame (E : Type) (cfg : Config) (body : Except E Chars) (sink : Chars) :
    Except E Unit × StreamSt :=
  match body with
  | Except.error e => (Except.error e, ⟨StreamTarget.buffer, true, sink⟩)
  | Except.ok buf =>
    (Except.ok (), ⟨StreamTarget.original, false, sink ++ (post_process cfg buf ++ ['\n'])⟩)

/-- Errors surfaced by `write_table` before any output (src docstring lines
42-45). -/
inductive PtwError where
  | emptyTableName
  | emptyTableData
deriving DecidableEq

/-- Modelled from the spec: the base `write_table` (base class not in src/)
validates its preconditions before emitting anything — table name non-empty
(else `EmptyTableNameError`), headers and value matrix not both empty (else
`EmptyTableDataError`) — and only then runs `_write_table`. -/
def write_table_to (cfg : Config) (t : Table) (sink : Chars) :
    Except PtwError Unit × StreamSt :=
  if t.name = [] then
    (Except.error PtwError.emptyTableName, ⟨StreamTarget.original, false, sink⟩)
  else if t.headers = [] ∧ t.rows = [] then
    (Except.error PtwError.emptyTableData, ⟨StreamTarget.original, false, sink⟩)
  else
    js_write_table_frame PtwError cfg (Except.ok (raw_buffer cfg t)) sink

/-- `write_table` observed through the text it writes to an initially empty
output stream. -/
def write_table (cfg : Config) (t : Table) : Except PtwError Chars :=
  match write_table_to cfg t [] with
  | (Except.ok _, st) => Except.ok st.sink
  | (Except.error e, _) => Except.error e

/-! ### The rendered form of the output -/

/-- The text a single formatted cell contributes to the final output: its
buffer text sent through both quote-stripping passes. -/
def final_cell (cfg : Config) (v : RawValue) : Chars :=
  stripBoth (to_row_item cfg v)

/-- The buffer's lines after the quote-stripping passes, with every piece
stripped individually. -/
def rendered_lines (cfg : Config) (t : Table) : List Chars :=
  assemble_lines cfg t stripBoth

/-- The final output text: the per-piece-stripped lines joined, with the
trailing-comma fix applied when the closing row is written. -/
def rendered_text (cfg : Config) (t : Table) : Chars :=
  apply_closing_fix cfg (joinNl (rendered_lines cfg t))

/-- The default configuration of `__init__` (src lines 87-97). -/
def cfg0 : Config := {}

/-! ### The post-pass distributes over the assembled buffer -/

/-- The scan of a joined cell row (cells separated by `", "`, closed by `],`)
strips each cell individually: no match can span a separator. -/
theorem strip_quote_joinCells (tok : Chars) (hcm : ',' ∉ tok) (hrb : ']' ∉ tok) :
    ∀ cells : List Chars,
      strip_quote (joinCells cells ++ [']', ',']) tok
        = joinCells (cells.map (strip_quote · tok)) ++ [']', ','] := by
  intro cells
  induction cells with
  | nil =>
    show strip_quote [']', ','] tok = [']', ',']
    exact strip_quote_no_quote tok _ (by decide)
  | cons c cs ih =>
    cases cs with
    | nil =>
      show strip_quote (c ++ ']' :: [','] ) tok = strip_quote c tok ++ [']', ',']
      rw [strip_quote_append_safe tok ']' (by decide) hrb c [',']]
      rw [strip_quote_no_quote tok (']' :: [',']) (by decide)]
    | cons c' cs' =>
      have hx : (c ++ ',' :: ' ' :: joinCells (c' :: cs')) ++ [']', ',']
          = c ++ ',' :: ' ' :: (joinCells (c' :: cs') ++ [']', ',']) := by
        simp
      show strip_quote ((c ++ ',' :: ' ' :: joinCells (c' :: cs')) ++ [']', ',']) tok
          = (strip_quote c tok ++ ',' :: ' ' :: joinCells ((c' :: cs').map (strip_quote · tok)))
            ++ [']', ',']
      rw [hx, strip_quote_append_safe tok ',' (by decide) hcm c
        (' ' :: (joinCells (c' :: cs') ++ [']', ','])),
        strip_quote_cons_safe tok ',' _ (by decide),
        strip_quote_cons_safe tok ' ' _ (by decide), ih]
      simp

/-- The scan of a whole body line strips each cell individually. -/
theorem strip_quote_line_of (tok : Chars) (hcm : ',' ∉ tok) (hrb : ']' ∉ tok) :
    ∀ (w : Nat) (cells : List Chars),
      strip_quote (line_of w cells) tok = line_of w (cells.map (strip_quote · tok)) := by
  intro w
  induction w with
  | zero =>
    intro cells
    show strip_quote ('[' :: (joinCells cells ++ [']', ','])) tok
        = '[' :: (joinCells (cells.map (strip_quote · tok)) ++ [']', ','])
    rw [strip_quote_cons_safe tok '[' _ (by decide), strip_quote_joinCells tok hcm hrb]
  | succ w ih =>
    intro cells
    show strip_quote (List.replicate (w + 1) ' ' ++ _) tok = _
    rw [List.replicate_succ, List.cons_append, strip_quote_cons_safe tok ' ' _ (by decide)]
    have := ih cells
    unfold line_of at this
    rw [this]
    rfl

/-- The scan of joined lines strips each line individually: no match can
span a newline. -/
theorem strip_quote_joinNl (tok : Chars) (hnl : '\n' ∉ tok) :
    ∀ ls : List Chars,
      strip_quote (joinNl ls) tok = joinNl (ls.map (strip_quote · tok)) := by
  intro ls
  induction ls with
  | nil => rfl
  | cons l ls' ih =>
    cases ls' with
    | nil => rfl
    | cons l' ls'' =>
      rw [joinNl_cons_cons, strip_quote_append_safe tok '\n' (by decide) hnl l _,
        strip_quote_cons_safe tok '\n' _ (by decide), ih]
      rfl

/-- One quote-stripping pass over the assembled buffer acts on each piece
(opening line, cells, closing line) individually. -/
theorem strip_quote_assemble (tok : Chars) (hnl : '\n' ∉ tok) (hcm : ',' ∉ tok)
    (hrb : ']' ∉ tok) (cfg : Config) (t : Table) (f : Chars → Chars) :
    strip_quote (joinNl (assemble_lines cfg t f)) tok
      = joinNl (assemble_lines cfg t (fun c => strip_quote (f c) tok)) := by
  rw [strip_quote_joinNl tok hnl]
  unfold assemble_lines
  rw [List.map_cons, List.map_append, List.map_map]
  have hbody : List.map
        ((fun x => strip_quote x tok) ∘ fun cells => line_of cfg.indent_width (cells.map f))
        (body_cell_texts cfg t)
      = List.map (fun cells => line_of cfg.indent_width
          (cells.map (fun c => strip_quote (f c) tok))) (body_cell_texts cfg t) := by
    apply List.map_congr_left
    intro cells _
    show strip_quote (line_of cfg.indent_width (cells.map f)) tok = _
    rw [strip_quote_line_of tok hcm hrb, List.map_map]
    rfl
  have hclose : List.map (fun x => strip_quote x tok)
        (if cfg.is_write_closing_row then [f closing_line] else [])
      = (if cfg.is_write_closing_row then [strip_quote (f closing_line) tok] else []) := by
    cases cfg.is_write_closing_row <;> simp
  rw [hbody, hclose]

/-- Gluing the line-terminated buffer back together: each emitted line is
followed by one newline. -/
theorem flatten_terminated :
    ∀ ls : List Chars, ls ≠ [] →
      (ls.map (fun l => l ++ ['\n'])).flatten = joinNl ls ++ ['\n'] := by
  intro ls
  induction ls with
  | nil => intro h; exact absurd rfl h
  | cons l ls' ih =>
    intro _
    cases ls' with
    | nil => simp [joinNl]
    | cons l' ls'' =>
      rw [List.map_cons, List.flatten_cons, ih (by simp), joinNl_cons_cons]
      simp

/-- Helper: appending to the left does not change a defined last element. -/
theorem getLast?_append_of (x y : Chars) (c : Char) (h : y.getLast? = some c) :
    (x ++ y).getLast? = some c := by
  rw [List.getLast?_append, h]
  rfl

/-- Helper: a cons does not change a defined last element. -/
theorem getLast?_cons_of (a : Char) (y : Chars) (c : Char) (h : y.getLast? = some c) :
    (a :: y).getLast? = some c := by
  have : a :: y = [a] ++ y := rfl
  rw [this]
  exact getLast?_append_of [a] y c h

/-- Every body line ends with the comma of its `],` suffix. -/
theorem line_of_getLast (w : Nat) (cells : List Chars) :
    (line_of w cells).getLast? = some ',' := by
  unfold line_of
  exact getLast?_append_of _ _ ','
    (getLast?_cons_of '[' _ ',' (getLast?_append_of _ _ ',' (by decide)))

/-- The opening line ends with its `[`. -/
theorem opening_line_getLast (cfg : Config) (t : Table) :
    (opening_line cfg t).getLast? = some '[' := by
  unfold opening_line
  exact getLast?_append_of _ _ '['
    (getLast?_cons_of ' ' _ '[' (getLast?_append_of _ _ '[' (by decide)))

/-- The buffer as emitted never ends in a newline before the line
terminator: its last line ends in `[`, `,` or `;`. -/
theorem buffer_getLast_ne_nl (cfg : Config) (t : Table) :
    ∃ c, (joinNl (assemble_lines cfg t id)).getLast? = some c ∧ c ≠ '\n' := by
  have key : ∃ l c, (assemble_lines cfg t id).getLast? = some l
      ∧ l.getLast? = some c ∧ c ≠ '\n' := by
    unfold assemble_lines
    cases hcl : cfg.is_write_closing_row with
    | true =>
      refine ⟨closing_line, ';', ?_, by decide, by decide⟩
      rw [if_pos rfl, ← List.cons_append]
      exact List.getLast?_concat _
    | false =>
      rw [if_neg (by decide), List.append_nil]
      rcases List.eq_nil_or_concat (body_cell_texts cfg t) with hb | ⟨bs, b, hb⟩
      · refine ⟨opening_line cfg t, '[', ?_, opening_line_getLast cfg t, by decide⟩
        simp [hb]
      · refine ⟨line_of cfg.indent_width (b.map id), ',', ?_, line_of_getLast _ _, by decide⟩
        rw [hb, List.concat_eq_append, List.map_append, List.map_cons, List.map_nil,
          ← List.cons_append]
        exact List.getLast?_concat _
  obtain ⟨l, c, hl, hc, hne⟩ := key
  refine ⟨c, ?_, hne⟩
  refine joinNl_getLast? _ l hl ?_ |>.trans hc
  intro hnil
  rw [hnil] at hc
  simp at hc

/-- `rstrip("\n")` of the emitted buffer recovers the newline-joined lines
(src line 114). -/
theorem rstrip_raw_buffer (cfg : Config) (t : Table) :
    rstripChar '\n' (raw_buffer cfg t) = joinNl (assemble_lines cfg t id) := by
  unfold raw_buffer
  rw [flatten_terminated _ (by unfold assemble_lines; simp)]
  rw [rstripChar_append_same]
  obtain ⟨c, hc, hne⟩ := buffer_getLast_ne_nl cfg t
  exact rstripChar_of_getLast?_ne '\n' _ c hc hne

/-- The two quote-stripping passes turn the emitted buffer into the same
assembly with every piece individually stripped. -/
theorem stripBoth_raw_buffer (cfg : Config) (t : Table) :
    stripBoth (rstripChar '\n' (raw_buffer cfg t))
      = joinNl (assemble_lines cfg t stripBoth) := by
  rw [rstrip_raw_buffer]
  unfold stripBoth
  rw [strip_quote_assemble trueTok (by decide) (by decide) (by decide) cfg t id,
    strip_quote_assemble falseTok (by decide) (by decide) (by decide) cfg t
      (fun c => strip_quote (id c) trueTok)]
  rfl

/-- Under the two preconditions, `write_table` succeeds and writes exactly the
rendered text followed by the final newline. -/
theorem write_table_ok_eq (cfg : Config) (t : Table) (h1 : t.name ≠ [])
    (h2 : ¬(t.headers = [] ∧ t.rows = [])) :
    write_table cfg t = Except.ok (rendered_text cfg t ++ ['\n']) := by
  unfold write_table write_table_to
  rw [if_neg h1, if_neg h2]
  show (Except.ok ([] ++ (post_process cfg (raw_buffer cfg t) ++ ['\n']))
      : Except PtwError Chars) = _
  rw [List.nil_append]
  unfold post_process
  rw [stripBoth_raw_buffer]
  rfl

/-! ### Shared concrete fixtures -/

/-- The default configuration with native datetime formatting switched on. -/
def cfgDT : Config := { cfg0 with is_datetime_instance_formatting := true }

/-- The default configuration with the declaration keyword set to `var`. -/
def cfgVar : Config := { cfg0 with variable_declaration := VarDecl.var }

/-! ### Claims -/

/-- Claim C1: for every table whose cells include boolean values,
`write_table` renders each boolean cell as the bare unquoted token `true` or
`false` in the final output text, never as a quoted string, even though the
generic quoting pass quotes it in the intermediate buffer.  The final text is
exactly the assembly in which every cell contributes its post-passed text,
and a boolean cell's post-passed text is the bare token `bool_to_str b`,
which contains no quote — even though its buffer text was the quoted
`quoteStr (bool_to_str b)`. -/
theorem bool_cells_rendered_unquoted (cfg : Config) (t : Table)
    (h1 : t.name ≠ []) (h2 : ¬(t.headers = [] ∧ t.rows = [])) :
    write_table cfg t = Except.ok (rendered_text cfg t ++ ['\n'])
    ∧ (∀ b, to_row_item cfg (RawValue.vBool b) = quoteStr (bool_to_str b))
    ∧ (∀ b, final_cell cfg (RawValue.vBool b) = bool_to_str b)
    ∧ (∀ b, '"' ∉ bool_to_str b) := by
  refine ⟨write_table_ok_eq cfg t h1 h2, fun b => rfl, fun b => ?_, fun b => ?_⟩
  · cases b <;> rfl
  · cases b <;> decide

/-- Witness for C1 at a concrete one-boolean-cell table. -/
theorem bool_cells_rendered_unquoted_witness :
    write_table cfg0 ⟨"t".data, ["a".data], [[RawValue.vBool true]]⟩
        = Except.ok (rendered_text cfg0 ⟨"t".data, ["a".data], [[RawValue.vBool true]]⟩ ++ ['\n'])
    ∧ final_cell cfg0 (RawValue.vBool true) = bool_to_str true :=
  ⟨(bool_cells_rendered_unquoted cfg0 ⟨"t".data, ["a".data], [[RawValue.vBool true]]⟩
      (by decide) (by decide)).1,
   (bool_cells_rendered_unquoted cfg0 ⟨"t".data, ["a".data], [[RawValue.vBool true]]⟩
      (by decide) (by decide)).2.2.1 true⟩

/-- Claim C2: the boolean post-pass strips quotes around the literal tokens
`true` and `false` wherever they appear verbatim in the rendered buffer, so a
string-valued cell whose content is exactly `"true"` or `"false"` is emitted
unquoted as well: its post-passed cell text is the bare token, and on a
concrete table with the string cell `"true"` the full output contains the
bare `[true]`.  The pass is a blind text scan of the whole buffer
(`strip_quote`), not a per-cell structural decision. -/
theorem string_true_cell_unquoted :
    (∀ cfg : Config, final_cell cfg (RawValue.vStr trueTok) = trueTok)
    ∧ (∀ cfg : Config, final_cell cfg (RawValue.vStr falseTok) = falseTok)
    ∧ write_table cfg0 ⟨"t".data, ["a".data], [[RawValue.vStr "true".data]]⟩
        = Except.ok "const t = [\n    [\"a\"],\n    [true]\n];\n".data :=
  ⟨fun _ => rfl, fun _ => rfl, rfl⟩

/-- Claim C3: a positive-infinity cell is rendered as the literal `Infinity`,
a negative-infinity cell as `-Infinity`, and a not-a-number cell as `NaN`;
the post-pass leaves all three untouched. -/
theorem infinity_nan_rendered (cfg : Config) :
    to_row_item cfg RawValue.vInf = "Infinity".data
    ∧ to_row_item cfg RawValue.vNegInf = "-Infinity".data
    ∧ to_row_item cfg RawValue.vNaN = "NaN".data
    ∧ final_cell cfg RawValue.vInf = "Infinity".data
    ∧ final_cell cfg RawValue.vNegInf = "-Infinity".data
    ∧ final_cell cfg RawValue.vNaN = "NaN".data :=
  ⟨rfl, rfl, rfl, rfl, rfl, rfl⟩

/-- Claim C4: every null input cell is substituted, immediately before
formatting, with the sentinel `__NONE_VALUE_DP`, so it is rendered as the
bare token `null` and never as a quoted string; a concrete run shows the bare
`null` in the emitted text. -/
theorem null_rendered_bare (cfg : Config) :
    to_row_item cfg RawValue.vNull = NONE_VALUE_DP
    ∧ NONE_VALUE_DP = "null".data
    ∧ final_cell cfg RawValue.vNull = "null".data
    ∧ '"' ∉ NONE_VALUE_DP
    ∧ NONE_VALUE_DP ≠ quoteStr "null".data
    ∧ write_table cfg0 ⟨"t".data, ["a".data], [[RawValue.vNull]]⟩
        = Except.ok "const t = [\n    [\"a\"],\n    [null]\n];\n".data :=
  ⟨rfl, rfl, rfl, by decide, by decide, rfl⟩

/-- Claim C5: when the closing-row option is enabled and `write_table`
succeeds, the next-to-last physical line of the emitted block (the line
carrying the last data row) does not end with the trailing comma separator:
it is exactly the `rstrip(",")` of the buffer line, so its last character is
never a comma. -/
theorem last_row_no_trailing_comma (cfg : Config) (t : Table) (txt : Chars)
    (hcl : cfg.is_write_closing_row = true)
    (hok : write_table cfg t = Except.ok txt) :
    2 ≤ (pyLines txt).length
    ∧ ((pyLines txt).getD ((pyLines txt).length - 2) []).getLast? ≠ some ',' := by
  have h1 : t.name ≠ [] := by
    intro h
    unfold write_table write_table_to at hok
    rw [if_pos h] at hok
    exact Except.noConfusion hok
  have h2 : ¬(t.headers = [] ∧ t.rows = []) := by
    intro h
    unfold write_table write_table_to at hok
    rw [if_neg h1, if_pos h] at hok
    exact Except.noConfusion hok
  have heq := write_table_ok_eq cfg t h1 h2
  rw [hok] at heq
  have htxt : txt = rendered_text cfg t ++ ['\n'] := by
    injection heq
  -- the rendered line list ends with the closing row
  have hshape : rendered_lines cfg t
      = stripBoth (opening_line cfg t)
        :: ((body_cell_texts cfg t).map
            (fun cells => line_of cfg.indent_width (cells.map stripBoth))
          ++ [stripBoth closing_line]) := by
    unfold rendered_lines assemble_lines
    rw [hcl]
    simp
  have hclosing : stripBoth closing_line = closing_line := by decide
  have hlastRL : (rendered_lines cfg t).getLast? = some closing_line := by
    rw [hshape, hclosing, ← List.cons_append]
    exact List.getLast?_concat _
  have hslast : (joinNl (rendered_lines cfg t)).getLast? = some ';' :=
    (joinNl_getLast? (rendered_lines cfg t) closing_line hlastRL (by decide)).trans (by decide)
  have hsne : joinNl (rendered_lines cfg t) ≠ [] := by
    intro h
    rw [h] at hslast
    exact Option.noConfusion hslast
  have hnlmem : '\n' ∈ joinNl (rendered_lines cfg t) := by
    rw [hshape]
    cases hX : (body_cell_texts cfg t).map
        (fun cells => line_of cfg.indent_width (cells.map stripBoth)) with
    | nil =>
      rw [List.nil_append]
      exact nl_mem_joinNl _ _ _
    | cons x xs =>
      rw [List.cons_append]
      exact nl_mem_joinNl _ _ _
  have hpy_s : pyLines (joinNl (rendered_lines cfg t))
      = splitNl (joinNl (rendered_lines cfg t)) := by
    unfold pyLines
    rw [if_neg hsne, if_neg (by rw [hslast]; decide)]
  have hlen2 : 2 ≤ (splitNl (joinNl (rendered_lines cfg t))).length :=
    splitNl_length_two _ hnlmem
  have hrt : rendered_text cfg t
      = joinNl (fix_last_comma (splitNl (joinNl (rendered_lines cfg t)))) := by
    unfold rendered_text apply_closing_fix
    rw [if_pos hcl, hpy_s]
  have hfix : fix_last_comma (splitNl (joinNl (rendered_lines cfg t)))
      = (splitNl (joinNl (rendered_lines cfg t))).set
          ((splitNl (joinNl (rendered_lines cfg t))).length - 2)
          (rstripChar ',' ((splitNl (joinNl (rendered_lines cfg t))).getD
            ((splitNl (joinNl (rendered_lines cfg t))).length - 2) [])) := by
    unfold fix_last_comma
    rw [if_pos hlen2]
  have hidx : (splitNl (joinNl (rendered_lines cfg t))).length - 2
      < (splitNl (joinNl (rendered_lines cfg t))).length := by
    omega
  have hL''len : (fix_last_comma (splitNl (joinNl (rendered_lines cfg t)))).length
      = (splitNl (joinNl (rendered_lines cfg t))).length := by
    rw [hfix, List.length_set]
  have hL''ne : fix_last_comma (splitNl (joinNl (rendered_lines cfg t))) ≠ [] := by
    intro h
    rw [h] at hL''len
    simp at hL''len
    omega
  have hL''free : ∀ l ∈ fix_last_comma (splitNl (joinNl (rendered_lines cfg t))), '\n' ∉ l := by
    intro l hl
    rw [hfix] at hl
    rcases mem_set_or _ _ _ _ hl with h | h
    · intro hnl
      have hm := getD_mem (splitNl (joinNl (rendered_lines cfg t)))
        ((splitNl (joinNl (rendered_lines cfg t))).length - 2) [] hidx
      exact mem_splitNl_no_nl _ _ hm (mem_rstripChar ',' _ '\n' (h ▸ hnl))
    · exact mem_splitNl_no_nl _ _ h
  have hpytxt : pyLines txt = fix_last_comma (splitNl (joinNl (rendered_lines cfg t))) := by
    rw [htxt, hrt]
    unfold pyLines
    rw [if_neg (by simp), if_pos (List.getLast?_concat _), List.dropLast_concat]
    exact splitNl_joinNl _ hL''ne hL''free
  constructor
  · rw [hpytxt, hL''len]
    exact hlen2
  · rw [hpytxt, hL''len, hfix,
      getD_set_self (splitNl (joinNl (rendered_lines cfg t))) _ _ [] hidx]
    exact rstripChar_getLast?_ne ',' _

/-- Witness for C5 at a concrete one-row table whose full output is computed
explicitly. -/
theorem last_row_no_trailing_comma_witness :
    2 ≤ (pyLines "const t = [\n    [\"a\"],\n    [1]\n];\n".data).length
    ∧ ((pyLines "const t = [\n    [\"a\"],\n    [1]\n];\n".data).getD
        ((pyLines "const t = [\n    [\"a\"],\n    [1]\n];\n".data).length - 2) []).getLast?
      ≠ some ',' :=
  last_row_no_trailing_comma cfg0 ⟨"t".data, ["a".data], [[RawValue.vInt 1]]⟩
    "const t = [\n    [\"a\"],\n    [1]\n];\n".data rfl rfl

/-- Claim C6: with an empty table name `write_table` fails with
`EmptyTableName`, and with both headers and value matrix empty it fails with
`EmptyTableData`; in both cases the output stream is left exactly as it was,
so no partial output is emitted. -/
theorem empty_name_data_errors (cfg : Config) (t : Table) (sink : Chars) :
    (t.name = [] →
      write_table_to cfg t sink
        = (Except.error PtwError.emptyTableName, ⟨StreamTarget.original, false, sink⟩))
    ∧ (t.name ≠ [] → t.headers = [] → t.rows = [] →
      write_table_to cfg t sink
        = (Except.error PtwError.emptyTableData, ⟨StreamTarget.original, false, sink⟩)) := by
  constructor
  · intro h
    unfold write_table_to
    rw [if_pos h]
  · intro h1 h2 h3
    unfold write_table_to
    rw [if_neg h1, if_pos ⟨h2, h3⟩]

/-- Witness for C6 at the two concrete degenerate tables. -/
theorem empty_name_data_errors_witness :
    write_table_to cfg0 ⟨[], ["a".data], [[RawValue.vInt 1]]⟩ []
        = (Except.error PtwError.emptyTableName, ⟨StreamTarget.original, false, []⟩)
    ∧ write_table_to cfg0 ⟨"t".data, [], []⟩ []
        = (Except.error PtwError.emptyTableData, ⟨StreamTarget.original, false, []⟩) :=
  ⟨(empty_name_data_errors cfg0 ⟨[], ["a".data], [[RawValue.vInt 1]]⟩ []).1 rfl,
   (empty_name_data_errors cfg0 ⟨"t".data, [], []⟩ []).2 (by decide) rfl rfl⟩

/-- Claim C7 (counterexample): the claim that the buffer is closed and the
original stream restored on every exit path fails on the error path — when
the abstracted row emission raises, `_write_table` has no handler
(src lines 108-127 contain no `try`/`finally`), so control returns with the
buffer still open and the stream still pointing at it. -/
theorem stream_restore_counterexample :
    (js_write_table_frame Unit cfg0 (Except.error ()) []).2.bufferOpen = true
    ∧ (js_write_table_frame Unit cfg0 (Except.error ()) []).2.target = StreamTarget.buffer :=
  ⟨rfl, rfl⟩

/-- Claim C7 (amended): on every run in which row emission returns normally,
the intermediate buffer is closed and the writer's original output stream is
restored before control returns; when row emission raises, the exception
propagates with the buffer still open and attached. -/
theorem stream_restored_on_ok (E : Type) (cfg : Config) (body : Except E Chars)
    (sink buf : Chars) (hbody : body = Except.ok buf) :
    (js_write_table_frame E cfg body sink).2.target = StreamTarget.original
    ∧ (js_write_table_frame E cfg body sink).2.bufferOpen = false := by
  subst hbody
  exact ⟨rfl, rfl⟩

/-- Witness for the amended C7 at a concrete normal run. -/
theorem stream_restored_on_ok_witness :
    (js_write_table_frame Unit cfg0 (Except.ok []) []).2.target = StreamTarget.original
    ∧ (js_write_table_frame Unit cfg0 (Except.ok []) []).2.bufferOpen = false :=
  stream_restored_on_ok Unit cfg0 (Except.ok []) [] [] rfl

/-- Claim C8: with native-datetime formatting on, a datetime cell is rendered
by `js_datetime_formatter` as `new Date("<formatted>")`, falling back to
`new Date("<str(value)>")` when the value's year predates the formatter's
minimum representable year instead of failing; with the mode off, the cell is
rendered as a quoted string literal. -/
theorem datetime_rendering (cfg : Config) (d : DateTimeVal) :
    (cfg.is_datetime_instance_formatting = true →
      to_row_item cfg (RawValue.vDateTime d) = js_datetime_formatter d
      ∧ (DATETIME_MIN_YEAR ≤ d.year →
          js_datetime_formatter d = "new Date(\"".data ++ (d.formatted ++ "\")".data))
      ∧ (d.year < DATETIME_MIN_YEAR →
          js_datetime_formatter d = "new Date(\"".data ++ (d.rawStr ++ "\")".data)))
    ∧ (cfg.is_datetime_instance_formatting = false →
      to_row_item cfg (RawValue.vDateTime d) = quote_datetime_formatter d
      ∧ quote_datetime_formatter d = '"' :: (d.formatted ++ ['"'])) := by
  constructor
  · intro hmode
    refine ⟨?_, ?_, ?_⟩
    · show (if cfg.is_datetime_instance_formatting then _ else _) = _
      rw [hmode]
      simp
    · intro hy
      unfold js_datetime_formatter
      rw [if_pos hy]
    · intro hy
      unfold js_datetime_formatter
      rw [if_neg (by omega)]
  · intro hmode
    refine ⟨?_, rfl⟩
    show (if cfg.is_datetime_instance_formatting then _ else _) = _
    rw [hmode]
    simp

/-- Witness for C8 at concrete datetimes in both modes and both year
ranges. -/
theorem datetime_rendering_witness :
    to_row_item cfgDT (RawValue.vDateTime ⟨2017, "f".data, "r".data⟩)
        = js_datetime_formatter ⟨2017, "f".data, "r".data⟩
    ∧ js_datetime_formatter ⟨2017, "f".data, "r".data⟩
        = "new Date(\"".data ++ ("f".data ++ "\")".data)
    ∧ js_datetime_formatter ⟨1800, "f".data, "r".data⟩
        = "new Date(\"".data ++ ("r".data ++ "\")".data)
    ∧ to_row_item cfg0 (RawValue.vDateTime ⟨2017, "f".data, "r".data⟩)
        = quote_datetime_formatter ⟨2017, "f".data, "r".data⟩ :=
  ⟨((datetime_rendering cfgDT ⟨2017, "f".data, "r".data⟩).1 rfl).1,
   ((datetime_rendering cfgDT ⟨2017, "f".data, "r".data⟩).1 rfl).2.1 (by decide),
   ((datetime_rendering cfgDT ⟨1800, "f".data, "r".data⟩).1 rfl).2.2 (by decide),
   ((datetime_rendering cfg0 ⟨2017, "f".data, "r".data⟩).2 rfl).1⟩

/-- Claim C9: setting the declaration keyword to any value outside the closed
set `{var, let, const}` (after stripping and lowercasing) fails immediately
with the explicit `ValueError` text, and the previously stored keyword is
never replaced: no `Except.ok` configuration is produced. -/
theorem invalid_declaration_rejected (cfg : Config) (value : Chars)
    (hinv : parse_var_decl (normalize_decl value) = none) :
    set_variable_declaration cfg value = Except.error DECL_ERROR
    ∧ ∀ cfg' : Config, set_variable_declaration cfg value ≠ Except.ok cfg' := by
  unfold set_variable_declaration
  rw [hinv]
  exact ⟨rfl, fun cfg' h => Except.noConfusion h⟩

/-- Witness for C9 at the invalid keyword `function`. -/
theorem invalid_declaration_rejected_witness :
    set_variable_declaration cfgVar "function".data = Except.error DECL_ERROR
    ∧ set_variable_declaration cfgVar "function".data ≠ Except.ok cfgVar :=
  ⟨(invalid_declaration_rejected cfgVar "function".data (by decide)).1,
   (invalid_declaration_rejected cfgVar "function".data (by decide)).2 cfgVar⟩

/-- Claim C10: the setter normalizes its input by stripping surrounding
whitespace and lowercasing before validating, so every case or whitespace
variant of `var`, `let` or `const` is accepted and the stored keyword is the
lowercase trimmed word. -/
theorem declaration_normalized_accepted (cfg : Config) (value : Chars) (d : VarDecl)
    (hval : parse_var_decl (normalize_decl value) = some d) :
    set_variable_declaration cfg value = Except.ok { cfg with variable_declaration := d }
    ∧ d.chars = normalize_decl value := by
  constructor
  · unfold set_variable_declaration
    rw [hval]
  · unfold parse_var_decl at hval
    by_cases hv : normalize_decl value = "var".data
    · rw [if_pos hv] at hval
      injection hval with hd
      rw [← hd, hv]
      rfl
    · rw [if_neg hv] at hval
      by_cases hl : normalize_decl value = "let".data
      · rw [if_pos hl] at hval
        injection hval with hd
        rw [← hd, hl]
        rfl
      · rw [if_neg hl] at hval
        by_cases hc : normalize_decl value = "const".data
        · rw [if_pos hc] at hval
          injection hval with hd
          rw [← hd, hc]
          rfl
        · rw [if_neg hc] at hval
          exact Option.noConfusion hval

/-- Witness for C10 at the variant `" CONST "` applied over a writer whose
stored keyword is `var`. -/
theorem declaration_normalized_accepted_witness :
    set_variable_declaration cfgVar " CONST ".data
        = Except.ok { cfgVar with variable_declaration := VarDecl.constDecl }
    ∧ VarDecl.constDecl.chars = normalize_decl " CONST ".data :=
  ⟨(declaration_normalized_accepted cfgVar " CONST ".data VarDecl.constDecl (by decide)).1,
   (declaration_normalized_accepted cfgVar " CONST ".data VarDecl.constDecl (by decide)).2⟩

end PyTableWriter
